import Mathlib

/-
Verification of the table-refresh pipeline in `src/update.py` (Nasdaq Data Link
to S3 synchronization job).  The Python source is shallowly embedded below:

* pandas DataFrames become association lists from column name to a list of
  cell values (`DataFrame`); pandas raising an exception is modelled by
  `Option`-valued operations returning `none`;
* `Table.__post_init__` becomes `mkTable`, with the S3 object store abstracted
  as a predicate `store : String → Bool` telling whether any object exists
  under a given prefix (the `list_objects(..., Prefix=key, MaxKeys=1)` call);
* `Table._get_ndl_data` is split into the request it issues (`ndlFetchRequest`)
  and, for the bulk-export branch, an explicit exit-path model of the
  temporary-file lifecycle (`fullModeFetch`);
* `Table._apply_transforms` becomes `applyTransforms` / `transformTable`,
  including the in-place mutation of the caller's `partition_cols` list
  (`TState.caller` tracks the list object the caller passed in, and
  `TState.aliased` whether `self.partition_cols` still refers to it);
* `Dataset.update_tables` becomes `update_tables`, with one table's combined
  construction + refresh abstracted as an oracle `String → Except String Unit`.

Only the dtype tags exercised by the transform logic are given cast semantics
(`datetime64[ns]`, `int64`, `object`); any other tag is modelled as a failing
cast, which is sound for the properties proved here since every theorem about
casts either hypothesises or exhibits the concrete tags involved.
-/

/-- A cell value of an in-memory table: pandas integers, strings, and
datetime values (calendar year / month / day; time-of-day is irrelevant to
this pipeline, which only ever formats dates as `%Y-%m-%d`). -/
inductive Value where
  | intVal (n : Int)
  | strVal (s : String)
  | dateVal (y m d : Nat)
deriving DecidableEq, Repr

/-- One DataFrame column: the list of cell values, in row order. -/
abbrev Column := List Value

/-- A pandas DataFrame, modelled as an association list from column name to
column values.  All operations act on the first occurrence of a name, and the
frames produced by this pipeline have pairwise-distinct column names. -/
abbrev DataFrame := List (String × Column)

/-- Column selection `df[c]`; `none` models the `KeyError` pandas raises for a
missing column. -/
def getCol (df : DataFrame) (c : String) : Option Column :=
  match df with
  | [] => none
  | (c', v) :: rest => if c' = c then some v else getCol rest c

/-- Column assignment `df[c] = v`: replaces the column if present, otherwise
appends a new column (as pandas does). -/
def setCol (df : DataFrame) (c : String) (v : Column) : DataFrame :=
  match df with
  | [] => [(c, v)]
  | (c', v') :: rest => if c' = c then (c, v) :: rest else (c', v') :: setCol rest c v

/-- Column removal `df.drop(c, axis=1)`. -/
def dropCol (df : DataFrame) (c : String) : DataFrame :=
  match df with
  | [] => []
  | (c', v') :: rest => if c' = c then rest else (c', v') :: dropCol rest c

theorem getCol_setCol_self (df : DataFrame) (c : String) (v : Column) :
    getCol (setCol df c v) c = some v := by
  induction df with
  | nil => simp [getCol, setCol]
  | cons hd tl ih =>
    obtain ⟨c', v'⟩ := hd
    by_cases h : c' = c <;> simp [getCol, setCol, h, ih]

theorem getCol_setCol_ne (df : DataFrame) (a c : String) (v : Column) (h : a ≠ c) :
    getCol (setCol df a v) c = getCol df c := by
  induction df with
  | nil => simp [getCol, setCol, h]
  | cons hd tl ih =>
    obtain ⟨c', v'⟩ := hd
    by_cases h' : c' = a
    · subst h'
      simp [getCol, setCol, h]
    · simp [getCol, setCol, h']
      by_cases h'' : c' = c <;> simp [h'', ih]

theorem getCol_dropCol_ne (df : DataFrame) (a c : String) (h : a ≠ c) :
    getCol (dropCol df a) c = getCol df c := by
  induction df with
  | nil => simp [getCol, dropCol]
  | cons hd tl ih =>
    obtain ⟨c', v'⟩ := hd
    by_cases h' : c' = a
    · subst h'
      simp [getCol, dropCol, h]
    · simp [getCol, dropCol, h']
      by_cases h'' : c' = c <;> simp [h'', ih]

/-- Writing back the values a column already holds leaves the frame unchanged. -/
theorem setCol_getCol_self (df : DataFrame) (c : String) (v : Column)
    (h : getCol df c = some v) : setCol df c v = df := by
  induction df with
  | nil => simp [getCol] at h
  | cons hd tl ih =>
    obtain ⟨c', v'⟩ := hd
    by_cases h' : c' = c
    · subst h'
      simp [getCol] at h
      simp [setCol, h]
    · simp [getCol, h'] at h
      simp [setCol, h', ih h]

theorem getCol_eq_none (df : DataFrame) (c : String) (h : c ∉ df.map Prod.fst) :
    getCol df c = none := by
  induction df with
  | nil => simp [getCol]
  | cons hd tl ih =>
    obtain ⟨c', v'⟩ := hd
    rw [List.map_cons, List.mem_cons] at h
    push_neg at h
    simp [getCol, Ne.symm h.1, ih h.2]

theorem names_setCol (df : DataFrame) (c : String) (v : Column) :
    (setCol df c v).map Prod.fst = df.map Prod.fst ∨
      (c ∉ df.map Prod.fst ∧ (setCol df c v).map Prod.fst = df.map Prod.fst ++ [c]) := by
  induction df with
  | nil => simp [setCol]
  | cons hd tl ih =>
    obtain ⟨c', v'⟩ := hd
    by_cases h : c' = c
    · subst h
      simp [setCol]
    · rcases ih with ih | ih
      · simp [setCol, h, ih]
      · right
        simp [setCol, h, ih.2, Ne.symm h, ih.1]

theorem nodup_names_setCol (df : DataFrame) (c : String) (v : Column)
    (h : (df.map Prod.fst).Nodup) : ((setCol df c v).map Prod.fst).Nodup := by
  rcases names_setCol df c v with hn | hn
  · rwa [hn]
  · rw [hn.2, List.nodup_append]
    exact ⟨h, by simp, by simpa using hn.1⟩

/-- In a frame with pairwise-distinct column names, dropping a column really
removes it. -/
theorem getCol_dropCol_self (df : DataFrame) (c : String)
    (h : (df.map Prod.fst).Nodup) : getCol (dropCol df c) c = none := by
  induction df with
  | nil => simp [getCol, dropCol]
  | cons hd tl ih =>
    obtain ⟨c', v'⟩ := hd
    rw [List.map_cons, List.nodup_cons] at h
    by_cases h' : c' = c
    · subst h'
      simp only [dropCol, if_pos rfl]
      exact getCol_eq_none tl _ h.1
    · simp [dropCol, h', getCol, ih h.2]

/-
Decimal rendering and parsing of natural numbers, used to model
`strftime('%Y-%m-%d')` (zero-padded decimal fields joined by dashes) and the
parsing pandas performs when a `YYYY-MM-DD` string column is cast to
`datetime64[ns]`.  The digit functions are structural so that concrete
instances evaluate inside the kernel.
-/

/-- Little-endian decimal digits of `n`, computed with explicit fuel
(`fuel = n` suffices since the quotient shrinks); `[]` for `0`. -/
def revDigitsAux : Nat → Nat → List Nat
  | 0, _ => []
  | _ + 1, 0 => []
  | fuel + 1, n + 1 => ((n + 1) % 10) :: revDigitsAux fuel ((n + 1) / 10)

/-- Little-endian decimal digits of `n` (empty for `0`). -/
def natRevDigits (n : Nat) : List Nat := revDigitsAux n n

/-- The decimal value of a big-endian digit list. -/
def valBE (ds : List Nat) : Nat := ds.foldl (fun a d => a * 10 + d) 0

def digitChar (d : Nat) : Char :=
  if d = 0 then '0' else if d = 1 then '1' else if d = 2 then '2' else if d = 3 then '3'
  else if d = 4 then '4' else if d = 5 then '5' else if d = 6 then '6' else if d = 7 then '7'
  else if d = 8 then '8' else '9'

def charDigit (c : Char) : Option Nat :=
  if c = '0' then some 0 else if c = '1' then some 1 else if c = '2' then some 2
  else if c = '3' then some 3 else if c = '4' then some 4 else if c = '5' then some 5
  else if c = '6' then some 6 else if c = '7' then some 7 else if c = '8' then some 8
  else if c = '9' then some 9 else none

/-- The decimal rendering of `n`, zero-padded on the left to width `w`
(wider numbers render unpadded, as `strftime` does). -/
def natToPaddedChars (w n : Nat) : List Char :=
  (List.replicate (w - (natRevDigits n).length) 0 ++ (natRevDigits n).reverse).map digitChar

/-- `strftime('%Y-%m-%d')` on a datetime with the given calendar fields. -/
def formatDate (y m d : Nat) : String :=
  String.mk (natToPaddedChars 4 y ++ '-' :: natToPaddedChars 2 m ++ '-' :: natToPaddedChars 2 d)

/-- Splitting a character list at every occurrence of `sep`
(the semantics of Python's `str.split` with a one-character separator). -/
def splitOnChar (sep : Char) : List Char → List (List Char)
  | [] => [[]]
  | ch :: cs =>
    match splitOnChar sep cs with
    | [] => [[]]
    | grp :: grps => if ch = sep then [] :: grp :: grps else (ch :: grp) :: grps

def readDigitsAux : Nat → List Char → Option Nat
  | acc, [] => some acc
  | acc, ch :: cs =>
    match charDigit ch with
    | some d => readDigitsAux (acc * 10 + d) cs
    | none => none

/-- Reads a nonempty all-digit character list as a natural number. -/
def readNat (cs : List Char) : Option Nat :=
  match cs with
  | [] => none
  | _ :: _ => readDigitsAux 0 cs

/-- Parsing of a `Y-M-D` string into a datetime value, the behaviour of
`astype('datetime64[ns]')` on the date strings this pipeline produces.
(Calendar validity of the fields is not re-checked, which is irrelevant for
the round-trip properties proved below.) -/
def parseDate (s : String) : Option Value :=
  match splitOnChar '-' s.data with
  | [ys, ms, ds] =>
    match readNat ys, readNat ms, readNat ds with
    | some y, some m, some d => some (Value.dateVal y m d)
    | _, _, _ => none
  | _ => none

theorem charDigit_digitChar (d : Nat) (h : d < 10) : charDigit (digitChar d) = some d := by
  interval_cases d <;> rfl

theorem digitChar_ne_dash (d : Nat) (h : d < 10) : digitChar d ≠ '-' := by
  interval_cases d <;> decide

theorem revDigitsAux_lt (fuel n : Nat) : ∀ d ∈ revDigitsAux fuel n, d < 10 := by
  induction fuel generalizing n with
  | zero => simp [revDigitsAux]
  | succ fuel ih =>
    cases n with
    | zero => simp [revDigitsAux]
    | succ n =>
      intro d hd
      rw [revDigitsAux] at hd
      rcases List.mem_cons.mp hd with h | h
      · subst h
        exact Nat.mod_lt _ (by norm_num)
      · exact ih _ d h

theorem natRevDigits_lt (n : Nat) : ∀ d ∈ natRevDigits n, d < 10 :=
  revDigitsAux_lt n n

theorem valBE_append_singleton (ds : List Nat) (d : Nat) :
    valBE (ds ++ [d]) = valBE ds * 10 + d := by
  simp [valBE, List.foldl_append]

theorem valBE_revDigitsAux (fuel n : Nat) (h : n ≤ fuel) :
    valBE (revDigitsAux fuel n).reverse = n := by
  induction fuel generalizing n with
  | zero =>
    interval_cases n
    simp [revDigitsAux, valBE]
  | succ fuel ih =>
    cases n with
    | zero => simp [revDigitsAux, valBE]
    | succ n =>
      rw [revDigitsAux, List.reverse_cons, valBE_append_singleton]
      rw [ih ((n + 1) / 10) (by omega)]
      omega

theorem valBE_natRevDigits (n : Nat) : valBE (natRevDigits n).reverse = n :=
  valBE_revDigitsAux n n le_rfl

theorem valBE_replicate_zero_append (k : Nat) (l : List Nat) :
    valBE (List.replicate k 0 ++ l) = valBE l := by
  induction k with
  | zero => simp
  | succ k ih => simpa [valBE, List.replicate_succ] using ih

theorem readDigitsAux_map_digitChar (ds : List Nat) (hds : ∀ d ∈ ds, d < 10) :
    ∀ acc, readDigitsAux acc (ds.map digitChar) = some (ds.foldl (fun a d => a * 10 + d) acc) := by
  induction ds with
  | nil => intro acc; rfl
  | cons d ds ih =>
    intro acc
    have hd : d < 10 := hds d (List.mem_cons_self d ds)
    rw [List.map_cons, readDigitsAux, charDigit_digitChar d hd]
    exact ih (fun x hx => hds x (List.mem_cons_of_mem d hx)) (acc * 10 + d)

theorem natToPaddedChars_ne_nil (w n : Nat) (hw : 1 ≤ w) : natToPaddedChars w n ≠ [] := by
  unfold natToPaddedChars
  rcases h : (natRevDigits n).reverse with _ | ⟨d, ds⟩
  · have : (natRevDigits n).length = 0 := by
      simpa using congrArg List.length h
    simp [this, h]
    omega
  · simp [h]

theorem readNat_natToPaddedChars (w n : Nat) (hw : 1 ≤ w) :
    readNat (natToPaddedChars w n) = some n := by
  have hne := natToPaddedChars_ne_nil w n hw
  rcases hcs : natToPaddedChars w n with _ | ⟨c, cs⟩
  · exact absurd hcs hne
  · rw [readNat]
    rw [← hcs]
    unfold natToPaddedChars
    have hlt : ∀ d ∈ List.replicate (w - (natRevDigits n).length) 0 ++ (natRevDigits n).reverse,
        d < 10 := by
      intro d hd
      rcases List.mem_append.mp hd with h | h
      · have := List.eq_of_mem_replicate h
        omega
      · exact natRevDigits_lt n d (List.mem_reverse.mp h)
    rw [readDigitsAux_map_digitChar _ hlt 0]
    have : valBE (List.replicate (w - (natRevDigits n).length) 0 ++ (natRevDigits n).reverse)
        = n := by
      rw [valBE_replicate_zero_append, valBE_natRevDigits]
    simpa [valBE] using congrArg some this

theorem dash_not_mem_natToPaddedChars (w n : Nat) : '-' ∉ natToPaddedChars w n := by
  unfold natToPaddedChars
  intro hmem
  rcases List.mem_map.mp hmem with ⟨d, hd, heq⟩
  have hd10 : d < 10 := by
    rcases List.mem_append.mp hd with h | h
    · have := List.eq_of_mem_replicate h
      omega
    · exact natRevDigits_lt n d (List.mem_reverse.mp h)
  exact digitChar_ne_dash d hd10 heq

theorem splitOnChar_ne_nil (sep : Char) (l : List Char) : splitOnChar sep l ≠ [] := by
  induction l with
  | nil => simp [splitOnChar]
  | cons ch cs ih =>
    rcases h : splitOnChar sep cs with _ | ⟨g, gs⟩
    · exact absurd h ih
    · by_cases hc : ch = sep <;> simp [splitOnChar, h, hc]

theorem splitOnChar_not_mem (sep : Char) (l : List Char) (h : sep ∉ l) :
    splitOnChar sep l = [l] := by
  induction l with
  | nil => rfl
  | cons ch cs ih =>
    rw [List.mem_cons] at h
    push_neg at h
    rw [splitOnChar, ih h.2]
    simp [Ne.symm h.1]

theorem splitOnChar_append (sep : Char) (l₁ l₂ : List Char) (h : sep ∉ l₁) :
    splitOnChar sep (l₁ ++ sep :: l₂) = l₁ :: splitOnChar sep l₂ := by
  induction l₁ with
  | nil =>
    rcases h2 : splitOnChar sep l₂ with _ | ⟨g, gs⟩
    · exact absurd h2 (splitOnChar_ne_nil sep l₂)
    · simp [splitOnChar, h2]
  | cons ch cs ih =>
    rw [List.mem_cons] at h
    push_neg at h
    rw [List.cons_append, splitOnChar, ih h.2]
    simp [Ne.symm h.1]

/-- Formatting a datetime as `%Y-%m-%d` and casting the string back to
datetime recovers the datetime: the round trip underlying idempotence of the
transform on non-partition datetime columns. -/
theorem parseDate_formatDate (y m d : Nat) :
    parseDate (formatDate y m d) = some (Value.dateVal y m d) := by
  unfold parseDate formatDate
  have hdata : (String.mk (natToPaddedChars 4 y ++ '-' :: natToPaddedChars 2 m ++
      '-' :: natToPaddedChars 2 d)).data
      = natToPaddedChars 4 y ++ '-' :: (natToPaddedChars 2 m ++ '-' :: natToPaddedChars 2 d) := by
    simp
  rw [hdata]
  rw [splitOnChar_append '-' _ _ (dash_not_mem_natToPaddedChars 4 y)]
  rw [splitOnChar_append '-' _ _ (dash_not_mem_natToPaddedChars 2 m)]
  rw [splitOnChar_not_mem '-' _ (dash_not_mem_natToPaddedChars 2 d)]
  simp only [readNat_natToPaddedChars 4 y (by norm_num : 1 ≤ 4),
    readNat_natToPaddedChars 2 m (by norm_num : 1 ≤ 2),
    readNat_natToPaddedChars 2 d (by norm_num : 1 ≤ 2)]

/-
The cast semantics of `Series.astype(dtype)` for the dtype tags the transform
logic distinguishes, and the pipeline's per-column operations.
-/

/-- Python `int(s)` as used by `astype('int64')` on a string column. -/
def parseInt (s : String) : Option Int :=
  match s.data with
  | '-' :: cs => (readNat cs).map (fun n => -(n : Int))
  | cs => (readNat cs).map (fun n => (n : Int))

/-- `astype(dtype)` on a single cell.  `none` models the exception pandas
raises on an impossible cast; an unmodelled dtype tag is treated as a failing
cast (every theorem below either hypothesises or exhibits the tags it uses). -/
def castValue (dtype : String) (v : Value) : Option Value :=
  if dtype = "datetime64[ns]" then
    match v with
    | Value.dateVal y m d => some (Value.dateVal y m d)
    | Value.strVal s => parseDate s
    | Value.intVal _ => none
  else if dtype = "int64" then
    match v with
    | Value.intVal n => some (Value.intVal n)
    | Value.strVal s => (parseInt s).map Value.intVal
    | Value.dateVal _ _ _ => none
  else if dtype = "object" then
    some v
  else none

/-- The composite `astype('datetime64[ns]').dt.strftime('%Y-%m-%d')` applied
to one cell (update.py line 86). -/
def castFormatDate (v : Value) : Option Value :=
  match castValue "datetime64[ns]" v with
  | some (Value.dateVal y m d) => some (Value.strVal (formatDate y m d))
  | _ => none

/-- `Series.apply(lambda x: x.year)` on one cell: only datetimes have a
`year` attribute, anything else raises. -/
def yearOf : Value → Option Value
  | Value.dateVal y _ _ => some (Value.intVal (y : Int))
  | _ => none

def monthOf : Value → Option Value
  | Value.dateVal _ m _ => some (Value.intVal (m : Int))
  | _ => none

def dayOf : Value → Option Value
  | Value.dateVal _ _ d => some (Value.intVal (d : Int))
  | _ => none

/-- Element-wise application over a column, failing if any cell fails (a
pandas `astype`/`apply` raises on the first bad element and the whole
statement fails). -/
def mapOption (f : Value → Option Value) : List Value → Option (List Value)
  | [] => some []
  | v :: vs =>
    match f v, mapOption f vs with
    | some w, some ws => some (w :: ws)
    | _, _ => none

/-- `df[c] = df[c].map-like(f)` as one fallible step. -/
def castColumn (df : DataFrame) (c : String) (f : Value → Option Value) : Option DataFrame := do
  let vs ← getCol df c
  let ws ← mapOption f vs
  some (setCol df c ws)

/-- update.py lines 78-82: cast the partition column to datetime, assign the
`yyyy`, `mm`, `dd` columns (re-reading `self._data[column]` before each
assignment, exactly as the source does), then drop the original column. -/
def decomposeDate (df : DataFrame) (c : String) : Option DataFrame := do
  let vs ← getCol df c
  let cast ← mapOption (castValue "datetime64[ns]") vs
  let df1 := setCol df c cast
  let v1 ← getCol df1 c
  let ys ← mapOption yearOf v1
  let df2 := setCol df1 "yyyy" ys
  let v2 ← getCol df2 c
  let ms ← mapOption monthOf v2
  let df3 := setCol df2 "mm" ms
  let v3 ← getCol df3 c
  let ds ← mapOption dayOf v3
  let df4 := setCol df3 "dd" ds
  some (dropCol df4 c)

/-- The mutable state of one `_apply_transforms` run: the frame, the current
`self.partition_cols`, the list object the caller originally passed in
(`caller`), and whether `self.partition_cols` still aliases it (`aliased`) —
`self.partition_cols.remove(column)` mutates the caller's list in place until
the subsequent rebinding to a fresh `['yyyy','mm','dd']` breaks the alias. -/
structure TState where
  df : DataFrame
  pcols : List String
  caller : List String
  aliased : Bool
deriving DecidableEq, Repr

/-- One iteration of the `for column, dtype in self.schema.items()` loop
(update.py lines 75-89), with its `if self.partition_cols: / elif / else`
structure: when `partition_cols` is non-empty only the decomposition branch
can run; the datetime-formatting and plain-cast branches are reachable only
when `partition_cols` is empty. -/
def transformStep (st : TState) (c : String) (dtype : String) : Option TState :=
  if st.pcols ≠ [] then
    if c ∈ st.pcols ∧ dtype = "datetime64[ns]" then
      match decomposeDate st.df c with
      | none => none
      | some df' =>
        let removed := st.pcols.erase c
        let caller' := if st.aliased then removed else st.caller
        some { df := df', pcols := ["yyyy", "mm", "dd"], caller := caller', aliased := false }
    else some st
  else if dtype = "datetime64[ns]" then
    (castColumn st.df c castFormatDate).map (fun df' => { st with df := df' })
  else
    (castColumn st.df c (castValue dtype)).map (fun df' => { st with df := df' })

/-- The whole `_apply_transforms` loop over the schema entries in declaration
order. -/
def transformGo : List (String × String) → TState → Option TState
  | [], st => some st
  | (c, dtype) :: rest, st =>
    match transformStep st c dtype with
    | none => none
    | some st' => transformGo rest st'

/-- `_apply_transforms` observed through the table's own state: the
transformed frame and the final `self.partition_cols`. -/
def applyTransforms (schema : List (String × String)) (df : DataFrame)
    (pcols : List String) : Option (DataFrame × List String) :=
  (transformGo schema { df := df, pcols := pcols, caller := pcols, aliased := true }).map
    (fun st => (st.df, st.pcols))

/-- The `Table` dataclass fields as loaded from the YAML specification
(update.py lines 20-25). -/
structure TableInit where
  name : String
  update_field : String
  partition_cols : List String
  schema : List (String × String)
deriving DecidableEq, Repr

/-- `_apply_transforms` observed through the table specification: the updated
spec (only `partition_cols` can differ), the transformed frame, and the final
contents of the list object the caller supplied as `partition_cols`. -/
def transformTable (t : TableInit) (df : DataFrame) :
    Option (TableInit × DataFrame × List String) :=
  (transformGo t.schema
      { df := df, pcols := t.partition_cols, caller := t.partition_cols, aliased := true }).map
    (fun st => ({ t with partition_cols := st.pcols }, st.df, st.caller))

/-
`Table.__post_init__`: destination-key derivation and refresh-mode
resolution, executed once at construction.
-/

/-- Default of the `AWS_BUCKET_DIR` environment variable (update.py line 14). -/
def AWS_BUCKET_DIR : String := "nasdaq"

/-- Python `s.split('/')`. -/
def splitSlash (s : String) : List String := (splitOnChar '/' s.data).map String.mk

/-- update.py lines 30-31: the destination key.  For a table with an empty
`update_field` the expression indexes `name.split('/')[1]`, so a name without
a `/` raises `IndexError` (modelled as `none`) and construction fails. -/
def s3KeyOf (t : TableInit) : Option String :=
  if t.update_field = "" then
    match (splitSlash t.name).get? 1 with
    | some seg => some (AWS_BUCKET_DIR ++ "/" ++ t.name ++ "/" ++ seg ++ ".parquet")
    | none => none
  else some (AWS_BUCKET_DIR ++ "/" ++ t.name)

/-- A fully constructed `Table`: the spec fields plus the two values
`__post_init__` computes and freezes (`_s3_key`, `_refresh_mode`). -/
structure Table extends TableInit where
  s3_key : String
  refresh_mode : String
deriving DecidableEq, Repr

/-- `Table.__post_init__` (update.py lines 27-48).  `store` abstracts the S3
`list_objects(Bucket, Prefix=key, MaxKeys=1)` existence probe: `store key`
is true iff some object exists under prefix `key`. -/
def mkTable (init : TableInit) (store : String → Bool) : Option Table :=
  match s3KeyOf init with
  | none => none
  | some key =>
    if init.update_field = "" then
      some { toTableInit := init, s3_key := key, refresh_mode := "overwrite" }
    else if store key then
      some { toTableInit := init, s3_key := key, refresh_mode := "overwrite_partitions" }
    else
      some { toTableInit := init, s3_key := key, refresh_mode := "overwrite" }

/-- Python `name.replace('/', '.')`. -/
def dotName (s : String) : String :=
  String.mk (s.data.map (fun ch => if ch = '/' then '.' else ch))

/-- The remote call `_get_ndl_data` issues for a given as-of date. -/
inductive FetchRequest where
  | getTable (name : String) (paginate : Bool) (filterField filterValue : String)
  | exportTable (name : String) (filename : String)
deriving DecidableEq, Repr

/-- update.py lines 50-64: `_get_ndl_data` dispatches on the resolved
`refresh_mode` — the paginated watermark-filtered `get_table` only when the
mode is `append`/`overwrite_partitions`, the bulk `export_table` otherwise. -/
def ndlFetchRequest (t : Table) (date : String) : FetchRequest :=
  if t.refresh_mode = "append" ∨ t.refresh_mode = "overwrite_partitions" then
    FetchRequest.getTable t.name true t.update_field date
  else
    FetchRequest.exportTable t.name (dotName t.name ++ ".zip")

/-
The bulk-export branch of `_get_ndl_data` (update.py lines 59-71): download
the zip extract, parse it, and remove it in a `finally` block.
-/

/-- How the `ndl.export_table` call can go: success (the archive is on disk),
failure after partially materializing the file, or failure leaving the file
system as it was. -/
inductive ExportBehavior where
  | ok
  | failFileCreated
  | failNoFile
deriving DecidableEq, Repr

/-- Observable outcome of the bulk-export fetch: the parsed rows (`none` when
the raised exception propagates to the caller) and whether the temporary
archive still exists after the call. -/
structure FullFetchResult where
  rows : Option DataFrame
  tempFileExists : Bool
deriving DecidableEq, Repr

/-- update.py lines 59-71.  `parsed` is what `pd.read_csv` would yield
(`none` models a parse failure); `fs0` is whether the archive file already
existed beforehand.  The `finally` block removes the file when it exists, on
success and failure alike. -/
def fullModeFetch (eb : ExportBehavior) (parsed : Option DataFrame) (fs0 : Bool) :
    FullFetchResult :=
  let afterExport : Bool × Bool :=
    match eb with
    | ExportBehavior.ok => (true, true)
    | ExportBehavior.failFileCreated => (false, true)
    | ExportBehavior.failNoFile => (false, fs0)
  let exportOk := afterExport.1
  let fs1 := afterExport.2
  let rows : Option DataFrame := if exportOk then parsed else none
  { rows := rows, tempFileExists := if fs1 then false else fs1 }

/-
`Dataset.update_tables` (update.py lines 164-177).
-/

/-- The dataset-qualified table name `f'{dataset_name}/{table_name}'`. -/
def qualifiedName (ds tname : String) : String := ds ++ "/" ++ tname

/-- What the per-table `try`/`except` makes observable: either the
`Finished updating` path ran, or the failure was logged with the qualified
table identity and the error detail. -/
inductive TableLog where
  | refreshed (name : String)
  | failed (name : String) (err : String)
deriving DecidableEq, Repr

/-- One loop body of `update_tables`: construct the `Table` and `refresh` it,
catching any exception.  `outcome` abstracts the combined effect of
`Table(...)` plus `refresh(as_of_date)` for a qualified table name. -/
def processOneTable (ds tname : String) (outcome : String → Except String Unit) : TableLog :=
  match outcome (qualifiedName ds tname) with
  | Except.ok _ => TableLog.refreshed (qualifiedName ds tname)
  | Except.error e => TableLog.failed (qualifiedName ds tname) e

/-- `update_tables`: iterate the spec's tables in declaration order; a raised
exception is caught, logged, and the loop continues with the next table.  The
Python method returns `None`; the log sequence is its only observable
output. -/
def update_tables (ds : String) (tables : List String)
    (outcome : String → Except String Unit) : List TableLog :=
  match tables with
  | [] => []
  | tname :: rest =>
    (match outcome (qualifiedName ds tname) with
     | Except.ok _ => TableLog.refreshed (qualifiedName ds tname)
     | Except.error e => TableLog.failed (qualifiedName ds tname) e)
      :: update_tables ds rest outcome

/-
Shape and stability lemmas for the cell-level casts.
-/

theorem parseDate_shape (s : String) (w : Value) (h : parseDate s = some w) :
    ∃ y m d, w = Value.dateVal y m d := by
  unfold parseDate at h
  rcases hs : splitOnChar '-' s.data with _ | ⟨g1, gs⟩ <;> rw [hs] at h
  · simp at h
  · rcases gs with _ | ⟨g2, gs2⟩
    · simp at h
    · rcases gs2 with _ | ⟨g3, gs3⟩
      · simp at h
      · rcases gs3 with _ | ⟨g4, gs4⟩
        · rcases h1 : readNat g1 with _ | y <;> rcases h2 : readNat g2 with _ | m <;>
            rcases h3 : readNat g3 with _ | d <;> simp [h1, h2, h3] at h
          exact ⟨y, m, d, h.symm⟩
        · simp at h

theorem castValue_dt_shape (v w : Value)
    (h : castValue "datetime64[ns]" v = some w) : ∃ y m d, w = Value.dateVal y m d := by
  cases v with
  | intVal n => simp [castValue] at h
  | strVal s => exact parseDate_shape s w (by simpa [castValue] using h)
  | dateVal y m d =>
    simp [castValue] at h
    exact ⟨y, m, d, h.symm⟩

theorem castValue_stable (dtype : String) (v w : Value)
    (h : castValue dtype v = some w) : castValue dtype w = some w := by
  by_cases h1 : dtype = "datetime64[ns]"
  · subst h1
    obtain ⟨y, m, d, rfl⟩ := castValue_dt_shape v w h
    simp [castValue]
  · by_cases h2 : dtype = "int64"
    · subst h2
      cases v with
      | intVal n =>
        simp [castValue] at h
        rw [← h]
        simp [castValue]
      | strVal s =>
        simp [castValue] at h
        rcases hp : parseInt s with _ | n <;> rw [hp] at h <;> simp at h
        rw [← h]
        simp [castValue]
      | dateVal y m d => simp [castValue] at h
    · by_cases h3 : dtype = "object"
      · subst h3
        simp [castValue] at h
        rw [← h]
        simp [castValue]
      · simp [castValue, h1, h2, h3] at h

theorem castFormatDate_shape (v w : Value) (h : castFormatDate v = some w) :
    ∃ y m d, w = Value.strVal (formatDate y m d) := by
  unfold castFormatDate at h
  rcases hc : castValue "datetime64[ns]" v with _ | u <;> rw [hc] at h
  · simp at h
  · obtain ⟨y, m, d, rfl⟩ := castValue_dt_shape v u hc
    simp at h
    exact ⟨y, m, d, h.symm⟩

theorem castFormatDate_stable (v w : Value)
    (h : castFormatDate v = some w) : castFormatDate w = some w := by
  obtain ⟨y, m, d, rfl⟩ := castFormatDate_shape v w h
  unfold castFormatDate
  simp [castValue, parseDate_formatDate y m d]

/-- The single cell-level operation the `elif`/`else` branches of the loop
apply for a given dtype tag. -/
def cellCast (dtype : String) : Value → Option Value :=
  if dtype = "datetime64[ns]" then castFormatDate else castValue dtype

theorem cellCast_of_ne (dtype : String) (h : dtype ≠ "datetime64[ns]") :
    cellCast dtype = castValue dtype := by
  simp [cellCast, h]

theorem cellCast_dt : cellCast "datetime64[ns]" = castFormatDate := by
  simp [cellCast]

theorem cellCast_stable (dtype : String) (v w : Value)
    (h : cellCast dtype v = some w) : cellCast dtype w = some w := by
  by_cases h1 : dtype = "datetime64[ns]"
  · subst h1
    rw [cellCast_dt] at h ⊢
    exact castFormatDate_stable v w h
  · rw [cellCast_of_ne dtype h1] at h ⊢
    exact castValue_stable dtype v w h

theorem mapOption_cons (f : Value → Option Value) (v : Value) (vs : List Value) :
    mapOption f (v :: vs)
      = match f v, mapOption f vs with
        | some w, some ws => some (w :: ws)
        | _, _ => none := rfl

theorem mapOption_eq_some_cons (f : Value → Option Value) (v : Value) (vs ws' : List Value)
    (h : mapOption f (v :: vs) = some ws') :
    ∃ w ws, f v = some w ∧ mapOption f vs = some ws ∧ ws' = w :: ws := by
  rw [mapOption_cons] at h
  rcases hv : f v with _ | w <;> rw [hv] at h <;>
    rcases hvs : mapOption f vs with _ | ws <;> rw [hvs] at h <;> simp at h
  exact ⟨w, ws, rfl, rfl, h.symm⟩

theorem mapOption_mem_shape (f : Value → Option Value) (vs ws : List Value)
    (h : mapOption f vs = some ws) :
    ∀ w ∈ ws, ∃ v, f v = some w := by
  induction vs generalizing ws with
  | nil =>
    simp [mapOption] at h
    subst h
    simp
  | cons v vs ih =>
    obtain ⟨w, ws0, hv, hvs, rfl⟩ := mapOption_eq_some_cons f v vs ws h
    intro u hu
    rcases List.mem_cons.mp hu with rfl | hu
    · exact ⟨v, hv⟩
    · exact ih ws0 hvs u hu

theorem mapOption_stable (f : Value → Option Value)
    (hf : ∀ v w, f v = some w → f w = some w) (vs ws : List Value)
    (h : mapOption f vs = some ws) : mapOption f ws = some ws := by
  induction vs generalizing ws with
  | nil =>
    simp [mapOption] at h
    subst h
    rfl
  | cons v vs ih =>
    obtain ⟨w, ws0, hv, hvs, rfl⟩ := mapOption_eq_some_cons f v vs ws h
    rw [mapOption_cons, hf v w hv, ih ws0 hvs]

/-- Total versions of the `x.year` / `x.month` / `x.day` accessors, used to
state what the decomposition writes into `yyyy`, `mm`, `dd` for columns that
are known to hold datetimes. -/
def yearValue : Value → Value
  | Value.dateVal y _ _ => Value.intVal (y : Int)
  | v => v

def monthValue : Value → Value
  | Value.dateVal _ m _ => Value.intVal (m : Int)
  | v => v

def dayValue : Value → Value
  | Value.dateVal _ _ d => Value.intVal (d : Int)
  | v => v

theorem mapOption_yearOf (cast : List Value)
    (h : ∀ v ∈ cast, ∃ y m d, v = Value.dateVal y m d) :
    mapOption yearOf cast = some (cast.map yearValue) := by
  induction cast with
  | nil => rfl
  | cons v vs ih =>
    obtain ⟨y, m, d, rfl⟩ := h v (List.mem_cons_self v vs)
    rw [List.map_cons, mapOption_cons, ih (fun u hu => h u (List.mem_cons_of_mem _ hu))]
    rfl

theorem mapOption_monthOf (cast : List Value)
    (h : ∀ v ∈ cast, ∃ y m d, v = Value.dateVal y m d) :
    mapOption monthOf cast = some (cast.map monthValue) := by
  induction cast with
  | nil => rfl
  | cons v vs ih =>
    obtain ⟨y, m, d, rfl⟩ := h v (List.mem_cons_self v vs)
    rw [List.map_cons, mapOption_cons, ih (fun u hu => h u (List.mem_cons_of_mem _ hu))]
    rfl

theorem mapOption_dayOf (cast : List Value)
    (h : ∀ v ∈ cast, ∃ y m d, v = Value.dateVal y m d) :
    mapOption dayOf cast = some (cast.map dayValue) := by
  induction cast with
  | nil => rfl
  | cons v vs ih =>
    obtain ⟨y, m, d, rfl⟩ := h v (List.mem_cons_self v vs)
    rw [List.map_cons, mapOption_cons, ih (fun u hu => h u (List.mem_cons_of_mem _ hu))]
    rfl

/-
What one decomposition (update.py lines 78-82) does to the frame.
-/

theorem decomposeDate_spec (df : DataFrame) (c : String) (vs cast : List Value)
    (hv : getCol df c = some vs)
    (hcast : mapOption (castValue "datetime64[ns]") vs = some cast)
    (hc : c ∉ (["yyyy", "mm", "dd"] : List String)) :
    ∃ df', decomposeDate df c = some df'
      ∧ getCol df' "yyyy" = some (cast.map yearValue)
      ∧ getCol df' "mm" = some (cast.map monthValue)
      ∧ getCol df' "dd" = some (cast.map dayValue)
      ∧ ((df.map Prod.fst).Nodup → getCol df' c = none)
      ∧ (∀ c₂, c₂ ≠ c → c₂ ∉ (["yyyy", "mm", "dd"] : List String) →
          getCol df' c₂ = getCol df c₂) := by
  simp only [List.mem_cons, List.not_mem_nil, or_false, not_or] at hc
  obtain ⟨hcy, hcm, hcd⟩ := hc
  have hdates : ∀ v ∈ cast, ∃ y m d, v = Value.dateVal y m d := by
    intro w hw
    obtain ⟨v, hv2⟩ := mapOption_mem_shape _ vs cast hcast w hw
    exact castValue_dt_shape v w hv2
  have h1 : getCol (setCol df c cast) c = some cast := getCol_setCol_self df c cast
  have h2 : getCol (setCol (setCol df c cast) "yyyy" (cast.map yearValue)) c = some cast := by
    rw [getCol_setCol_ne _ _ _ _ (Ne.symm hcy)]
    exact h1
  have h3 : getCol (setCol (setCol (setCol df c cast) "yyyy" (cast.map yearValue)) "mm"
      (cast.map monthValue)) c = some cast := by
    rw [getCol_setCol_ne _ _ _ _ (Ne.symm hcm)]
    exact h2
  refine ⟨dropCol (setCol (setCol (setCol (setCol df c cast) "yyyy" (cast.map yearValue))
      "mm" (cast.map monthValue)) "dd" (cast.map dayValue)) c, ?_, ?_, ?_, ?_, ?_, ?_⟩
  · unfold decomposeDate
    rw [hv]
    simp only [Option.bind_eq_bind, Option.some_bind, hcast, h1, h2, h3,
      mapOption_yearOf cast hdates, mapOption_monthOf cast hdates, mapOption_dayOf cast hdates]
  · rw [getCol_dropCol_ne _ _ _ hcy, getCol_setCol_ne _ _ _ _ (by decide),
      getCol_setCol_ne _ _ _ _ (by decide), getCol_setCol_self]
  · rw [getCol_dropCol_ne _ _ _ hcm, getCol_setCol_ne _ _ _ _ (by decide),
      getCol_setCol_self]
  · rw [getCol_dropCol_ne _ _ _ hcd, getCol_setCol_self]
  · intro hnd
    apply getCol_dropCol_self
    exact nodup_names_setCol _ _ _ (nodup_names_setCol _ _ _
      (nodup_names_setCol _ _ _ (nodup_names_setCol _ _ _ hnd)))
  · intro c₂ hne hnotymd
    simp only [List.mem_cons, List.not_mem_nil, or_false, not_or] at hnotymd
    rw [getCol_dropCol_ne _ _ _ (Ne.symm hne),
      getCol_setCol_ne _ _ _ _ (Ne.symm hnotymd.2.2),
      getCol_setCol_ne _ _ _ _ (Ne.symm hnotymd.2.1),
      getCol_setCol_ne _ _ _ _ (Ne.symm hnotymd.1),
      getCol_setCol_ne _ _ _ _ (Ne.symm hne)]

theorem decomposeDate_frame (df df' : DataFrame) (c : String)
    (h : decomposeDate df c = some df') :
    ∀ c₂, c₂ ≠ c → c₂ ∉ (["yyyy", "mm", "dd"] : List String) →
      getCol df' c₂ = getCol df c₂ := by
  unfold decomposeDate at h
  simp only [Option.bind_eq_bind, Option.bind_eq_some, Option.some.injEq] at h
  obtain ⟨vs, hv, cast, hcast, v1, hv1, ys, hys, v2, hv2, ms, hms, v3, hv3, ds, hds, hfin⟩ := h
  intro c₂ hne hnotymd
  simp only [List.mem_cons, List.not_mem_nil, or_false, not_or] at hnotymd
  rw [← hfin]
  rw [getCol_dropCol_ne _ _ _ (Ne.symm hne),
    getCol_setCol_ne _ _ _ _ (Ne.symm hnotymd.2.2),
    getCol_setCol_ne _ _ _ _ (Ne.symm hnotymd.2.1),
    getCol_setCol_ne _ _ _ _ (Ne.symm hnotymd.1),
    getCol_setCol_ne _ _ _ _ (Ne.symm hne)]

/-
Reductions of one loop iteration (`transformStep`) in each reachable branch.
-/

theorem transformStep_skip (st : TState) (c dtype : String) (hne : st.pcols ≠ [])
    (hcond : ¬(c ∈ st.pcols ∧ dtype = "datetime64[ns]")) :
    transformStep st c dtype = some st := by
  simp [transformStep, hne, hcond]

theorem transformStep_empty (st : TState) (c dtype : String) (hp : st.pcols = []) :
    transformStep st c dtype
      = (castColumn st.df c (cellCast dtype)).map (fun df' => { st with df := df' }) := by
  by_cases hd : dtype = "datetime64[ns]"
  · subst hd
    simp [transformStep, hp, cellCast_dt]
  · simp [transformStep, hp, hd, cellCast_of_ne dtype hd]

theorem transformStep_trigger (st : TState) (c : String) (hne : st.pcols ≠ [])
    (hc : c ∈ st.pcols) :
    transformStep st c "datetime64[ns]"
      = (decomposeDate st.df c).map (fun df' =>
          { df := df', pcols := ["yyyy", "mm", "dd"],
            caller := if st.aliased then st.pcols.erase c else st.caller,
            aliased := false }) := by
  rcases hdec : decomposeDate st.df c with _ | df' <;> simp [transformStep, hne, hc, hdec]

/-
Runs of the whole loop when `partition_cols` is non-empty.
-/

theorem transformGo_skipAll (schema : List (String × String)) (st : TState)
    (hne : st.pcols ≠ [])
    (hskip : ∀ p ∈ schema, ¬(p.1 ∈ st.pcols ∧ p.2 = "datetime64[ns]")) :
    transformGo schema st = some st := by
  induction schema with
  | nil => rfl
  | cons hd rest ih =>
    obtain ⟨c, t⟩ := hd
    rw [transformGo, transformStep_skip st c t hne (hskip (c, t) (List.mem_cons_self _ _))]
    exact ih (fun p hp => hskip p (List.mem_cons_of_mem _ hp))

theorem transformGo_nonempty_cases (schema : List (String × String)) (st st' : TState)
    (hne : st.pcols ≠ []) (h : transformGo schema st = some st') :
    (st' = st ∧ ∀ p ∈ schema, ¬(p.1 ∈ st.pcols ∧ p.2 = "datetime64[ns]"))
    ∨ st'.pcols = ["yyyy", "mm", "dd"] := by
  induction schema generalizing st with
  | nil =>
    rw [transformGo] at h
    simp at h
    exact Or.inl ⟨h.symm, by simp⟩
  | cons hd rest ih =>
    obtain ⟨c, t⟩ := hd
    rw [transformGo] at h
    rcases hstep : transformStep st c t with _ | st₁ <;> rw [hstep] at h
    · simp at h
    · by_cases hcond : c ∈ st.pcols ∧ t = "datetime64[ns]"
      · obtain ⟨hc, ht⟩ := hcond
        subst ht
        rw [transformStep_trigger st c hne hc] at hstep
        rcases hdec : decomposeDate st.df c with _ | df' <;> rw [hdec] at hstep <;>
          simp at hstep
        have hp1 : st₁.pcols = ["yyyy", "mm", "dd"] := by rw [← hstep]
        have hne1 : st₁.pcols ≠ [] := by rw [hp1]; simp
        rcases ih st₁ hne1 h with ⟨rfl, _⟩ | hh
        · exact Or.inr hp1
        · exact Or.inr hh
      · rw [transformStep_skip st c t hne hcond] at hstep
        simp at hstep
        subst hstep
        rcases ih st hne h with ⟨rfl, hsk⟩ | hh
        · refine Or.inl ⟨rfl, ?_⟩
          intro p hp
          rcases List.mem_cons.mp hp with rfl | hp2
          · exact hcond
          · exact hsk p hp2
        · exact Or.inr hh

theorem transformGo_nonempty_frame (schema : List (String × String)) (st st' : TState)
    (c : String) (hne : st.pcols ≠ []) (hc1 : c ∉ st.pcols)
    (hc2 : c ∉ (["yyyy", "mm", "dd"] : List String))
    (h : transformGo schema st = some st') :
    getCol st'.df c = getCol st.df c := by
  induction schema generalizing st with
  | nil =>
    rw [transformGo] at h
    simp at h
    rw [h]
  | cons hd rest ih =>
    obtain ⟨c₀, t₀⟩ := hd
    rw [transformGo] at h
    rcases hstep : transformStep st c₀ t₀ with _ | st₁ <;> rw [hstep] at h
    · simp at h
    · by_cases hcond : c₀ ∈ st.pcols ∧ t₀ = "datetime64[ns]"
      · obtain ⟨hc0, ht⟩ := hcond
        subst ht
        rw [transformStep_trigger st c₀ hne hc0] at hstep
        rcases hdec : decomposeDate st.df c₀ with _ | df' <;> rw [hdec] at hstep <;>
          simp at hstep
        have hcc0 : c ≠ c₀ := fun hcc => hc1 (hcc ▸ hc0)
        have hdf1 : getCol st₁.df c = getCol st.df c := by
          rw [← hstep]
          exact decomposeDate_frame st.df df' c₀ hdec c hcc0 hc2
        have hne1 : st₁.pcols ≠ [] := by rw [← hstep]; simp
        have hc1' : c ∉ st₁.pcols := by rw [← hstep]; simpa using hc2
        rw [ih st₁ hne1 hc1' h, hdf1]
      · rw [transformStep_skip st c₀ t₀ hne hcond] at hstep
        simp at hstep
        subst hstep
        exact ih st hne hc1 h

/-
Evolution of `self.partition_cols` and the caller's aliased list object.
-/

theorem transformGo_unaliased (schema : List (String × String)) (st st' : TState)
    (ha : st.aliased = false) (hp : st.pcols = ["yyyy", "mm", "dd"])
    (h : transformGo schema st = some st') :
    st'.caller = st.caller ∧ st'.pcols = ["yyyy", "mm", "dd"] ∧ st'.aliased = false := by
  induction schema generalizing st with
  | nil =>
    rw [transformGo] at h
    simp at h
    rw [← h]
    exact ⟨rfl, hp, ha⟩
  | cons hd rest ih =>
    obtain ⟨c₀, t₀⟩ := hd
    rw [transformGo] at h
    rcases hstep : transformStep st c₀ t₀ with _ | st₁ <;> rw [hstep] at h
    · simp at h
    · have hne : st.pcols ≠ [] := by rw [hp]; simp
      by_cases hcond : c₀ ∈ st.pcols ∧ t₀ = "datetime64[ns]"
      · obtain ⟨hc0, ht⟩ := hcond
        subst ht
        rw [transformStep_trigger st c₀ hne hc0] at hstep
        rcases hdec : decomposeDate st.df c₀ with _ | df' <;> rw [hdec] at hstep <;>
          simp at hstep
        have h1 : st₁.caller = st.caller := by rw [← hstep]; simp [ha]
        have h2 : st₁.pcols = ["yyyy", "mm", "dd"] := by rw [← hstep]
        have h3 : st₁.aliased = false := by rw [← hstep]
        obtain ⟨g1, g2, g3⟩ := ih st₁ h3 h2 h
        exact ⟨g1.trans h1, g2, g3⟩
      · rw [transformStep_skip st c₀ t₀ hne hcond] at hstep
        simp at hstep
        subst hstep
        exact ih st ha hp h

theorem transformGo_caller (schema : List (String × String)) (st st' : TState)
    (ha : st.aliased = true) (h : transformGo schema st = some st') :
    (st'.pcols = st.pcols ∧ st'.caller = st.caller ∧ st'.aliased = true)
    ∨ (st'.pcols = ["yyyy", "mm", "dd"]
       ∧ ∃ c, c ∈ st.pcols ∧ st'.caller = st.pcols.erase c) := by
  induction schema generalizing st with
  | nil =>
    rw [transformGo] at h
    simp at h
    rw [← h]
    exact Or.inl ⟨rfl, rfl, ha⟩
  | cons hd rest ih =>
    obtain ⟨c₀, t₀⟩ := hd
    rw [transformGo] at h
    rcases hstep : transformStep st c₀ t₀ with _ | st₁ <;> rw [hstep] at h
    · simp at h
    · by_cases hne : st.pcols ≠ []
      · by_cases hcond : c₀ ∈ st.pcols ∧ t₀ = "datetime64[ns]"
        · obtain ⟨hc0, ht⟩ := hcond
          subst ht
          rw [transformStep_trigger st c₀ hne hc0] at hstep
          rcases hdec : decomposeDate st.df c₀ with _ | df' <;> rw [hdec] at hstep <;>
            simp at hstep
          have h1 : st₁.caller = st.pcols.erase c₀ := by rw [← hstep]; simp [ha]
          have h2 : st₁.pcols = ["yyyy", "mm", "dd"] := by rw [← hstep]
          have h3 : st₁.aliased = false := by rw [← hstep]
          obtain ⟨g1, g2, _⟩ := transformGo_unaliased rest st₁ st' h3 h2 h
          exact Or.inr ⟨g2, c₀, hc0, g1.trans h1⟩
        · rw [transformStep_skip st c₀ t₀ hne hcond] at hstep
          simp at hstep
          subst hstep
          exact ih st ha h
      · push_neg at hne
        rw [transformStep_empty st c₀ t₀ hne] at hstep
        rcases hcc : castColumn st.df c₀ (cellCast t₀) with _ | df' <;> rw [hcc] at hstep <;>
          simp at hstep
        have h1 : st₁.caller = st.caller := by rw [← hstep]
        have h2 : st₁.pcols = st.pcols := by rw [← hstep]
        have h3 : st₁.aliased = true := by rw [← hstep]; exact ha
        rcases ih st₁ h3 h with ⟨g1, g2, g3⟩ | ⟨g1, c, hc, g2⟩
        · exact Or.inl ⟨g1.trans h2, g2.trans h1, g3⟩
        · exact Or.inr ⟨g1, c, h2 ▸ hc, by rw [g2, h2]⟩

/-
Runs of the whole loop when `partition_cols` is empty: every schema column is
processed by the `elif`/`else` branches.
-/

theorem castColumn_eq_some (df df' : DataFrame) (c : String) (f : Value → Option Value)
    (h : castColumn df c f = some df') :
    ∃ vs ws, getCol df c = some vs ∧ mapOption f vs = some ws ∧ df' = setCol df c ws := by
  unfold castColumn at h
  simp only [Option.bind_eq_bind, Option.bind_eq_some, Option.some.injEq] at h
  obtain ⟨vs, hv, ws, hw, hfin⟩ := h
  exact ⟨vs, ws, hv, hw, hfin.symm⟩

theorem transformGo_empty_state (schema : List (String × String)) (st st' : TState)
    (hp : st.pcols = []) (h : transformGo schema st = some st') :
    st'.pcols = [] ∧ st'.caller = st.caller ∧ st'.aliased = st.aliased := by
  induction schema generalizing st with
  | nil =>
    rw [transformGo] at h
    simp at h
    rw [← h]
    exact ⟨hp, rfl, rfl⟩
  | cons hd rest ih =>
    obtain ⟨c₀, t₀⟩ := hd
    rw [transformGo] at h
    rcases hstep : transformStep st c₀ t₀ with _ | st₁ <;> rw [hstep] at h
    · simp at h
    · rw [transformStep_empty st c₀ t₀ hp] at hstep
      rcases hcc : castColumn st.df c₀ (cellCast t₀) with _ | df' <;> rw [hcc] at hstep <;>
        simp at hstep
      have h1 : st₁.pcols = [] := by rw [← hstep]; exact hp
      have h2 : st₁.caller = st.caller := by rw [← hstep]
      have h3 : st₁.aliased = st.aliased := by rw [← hstep]
      obtain ⟨g1, g2, g3⟩ := ih st₁ h1 h
      exact ⟨g1, g2.trans h2, g3.trans h3⟩

theorem transformGo_empty_frame (schema : List (String × String)) (st st' : TState)
    (c : String) (hp : st.pcols = []) (hc : c ∉ schema.map Prod.fst)
    (h : transformGo schema st = some st') :
    getCol st'.df c = getCol st.df c := by
  induction schema generalizing st with
  | nil =>
    rw [transformGo] at h
    simp at h
    rw [← h]
  | cons hd rest ih =>
    obtain ⟨c₀, t₀⟩ := hd
    rw [List.map_cons, List.mem_cons] at hc
    push_neg at hc
    rw [transformGo] at h
    rcases hstep : transformStep st c₀ t₀ with _ | st₁ <;> rw [hstep] at h
    · simp at h
    · rw [transformStep_empty st c₀ t₀ hp] at hstep
      rcases hcc : castColumn st.df c₀ (cellCast t₀) with _ | df' <;> rw [hcc] at hstep <;>
        simp at hstep
      obtain ⟨vs0, ws0, hv0, hw0, hdf'⟩ := castColumn_eq_some _ _ _ _ hcc
      have h1 : st₁.pcols = [] := by rw [← hstep]; exact hp
      have hdfst : st₁.df = setCol st.df c₀ ws0 := by rw [← hstep]; exact hdf'
      have hdfc : getCol st₁.df c = getCol st.df c := by
        rw [hdfst, getCol_setCol_ne st.df c₀ c ws0 (Ne.symm hc.1)]
      rw [ih st₁ h1 hc.2 h, hdfc]

theorem transformGo_empty_col (schema : List (String × String)) (st st' : TState)
    (c t : String) (hp : st.pcols = []) (hnd : (schema.map Prod.fst).Nodup)
    (hmem : (c, t) ∈ schema) (h : transformGo schema st = some st') :
    ∃ vs ws, getCol st.df c = some vs ∧ mapOption (cellCast t) vs = some ws ∧
      getCol st'.df c = some ws := by
  induction schema generalizing st with
  | nil => simp at hmem
  | cons hd rest ih =>
    obtain ⟨c₀, t₀⟩ := hd
    rw [List.map_cons, List.nodup_cons] at hnd
    rw [transformGo] at h
    rcases hstep : transformStep st c₀ t₀ with _ | st₁ <;> rw [hstep] at h
    · simp at h
    · rw [transformStep_empty st c₀ t₀ hp] at hstep
      rcases hcc : castColumn st.df c₀ (cellCast t₀) with _ | df' <;> rw [hcc] at hstep <;>
        simp at hstep
      obtain ⟨vs0, ws0, hv0, hw0, hdf'⟩ := castColumn_eq_some _ _ _ _ hcc
      have h1 : st₁.pcols = [] := by rw [← hstep]; exact hp
      have hdfst : st₁.df = setCol st.df c₀ ws0 := by rw [← hstep]; exact hdf'
      rcases List.mem_cons.mp hmem with heq | hmem2
      · rw [Prod.mk.injEq] at heq
        obtain ⟨rfl, rfl⟩ := heq
        refine ⟨vs0, ws0, hv0, hw0, ?_⟩
        rw [transformGo_empty_frame rest st₁ st' c h1 hnd.1 h, hdfst, getCol_setCol_self]
      · have hcc0 : c₀ ≠ c := by
          intro heq0
          apply hnd.1
          rw [heq0]
          exact List.mem_map.mpr ⟨(c, t), hmem2, rfl⟩
        have hdfc : getCol st₁.df c = getCol st.df c := by
          rw [hdfst, getCol_setCol_ne st.df c₀ c ws0 hcc0]
        obtain ⟨vs, ws, hv, hw, hfin⟩ := ih st₁ h1 hnd.2 hmem2 h
        rw [hdfc] at hv
        exact ⟨vs, ws, hv, hw, hfin⟩

theorem transformGo_empty_fail (schema : List (String × String)) (st : TState)
    (c t : String) (hp : st.pcols = []) (hnd : (schema.map Prod.fst).Nodup)
    (hmem : (c, t) ∈ schema)
    (hfail : (getCol st.df c).bind (fun vs => mapOption (cellCast t) vs) = none) :
    transformGo schema st = none := by
  induction schema generalizing st with
  | nil => simp at hmem
  | cons hd rest ih =>
    obtain ⟨c₀, t₀⟩ := hd
    rw [List.map_cons, List.nodup_cons] at hnd
    rw [transformGo]
    rcases List.mem_cons.mp hmem with heq | hmem2
    · rw [Prod.mk.injEq] at heq
      obtain ⟨rfl, rfl⟩ := heq
      have hstep : transformStep st c t = none := by
        rw [transformStep_empty st c t hp]
        rcases hv : getCol st.df c with _ | vs
        · unfold castColumn
          rw [hv]
          rfl
        · rw [hv] at hfail
          simp only [Option.some_bind] at hfail
          unfold castColumn
          rw [hv]
          simp only [Option.bind_eq_bind, Option.some_bind, hfail]
          rfl
      rw [hstep]
    · rcases hstep : transformStep st c₀ t₀ with _ | st₁
      · rfl
      · rw [transformStep_empty st c₀ t₀ hp] at hstep
        rcases hcc : castColumn st.df c₀ (cellCast t₀) with _ | df' <;> rw [hcc] at hstep <;>
          simp at hstep
        obtain ⟨vs0, ws0, hv0, hw0, hdf'⟩ := castColumn_eq_some _ _ _ _ hcc
        have h1 : st₁.pcols = [] := by rw [← hstep]; exact hp
        have hdfst : st₁.df = setCol st.df c₀ ws0 := by rw [← hstep]; exact hdf'
        have hcc0 : c₀ ≠ c := by
          intro heq0
          apply hnd.1
          rw [heq0]
          exact List.mem_map.mpr ⟨(c, t), hmem2, rfl⟩
        have hfail1 : (getCol st₁.df c).bind (fun vs => mapOption (cellCast t) vs) = none := by
          rw [hdfst, getCol_setCol_ne st.df c₀ c ws0 hcc0]
          exact hfail
        exact ih st₁ h1 hnd.2 hmem2 hfail1

theorem transformGo_empty_again (schema : List (String × String)) (st st' stb : TState)
    (hnd : (schema.map Prod.fst).Nodup) (hp : st.pcols = [])
    (h : transformGo schema st = some st') (hbdf : stb.df = st'.df) (hbp : stb.pcols = []) :
    transformGo schema stb = some stb := by
  induction schema generalizing st stb with
  | nil => rfl
  | cons hd rest ih =>
    obtain ⟨c₀, t₀⟩ := hd
    rw [List.map_cons, List.nodup_cons] at hnd
    rw [transformGo] at h
    rcases hstep : transformStep st c₀ t₀ with _ | st₁ <;> rw [hstep] at h
    · simp at h
    · rw [transformStep_empty st c₀ t₀ hp] at hstep
      rcases hcc : castColumn st.df c₀ (cellCast t₀) with _ | df' <;> rw [hcc] at hstep <;>
        simp at hstep
      obtain ⟨vs0, ws0, hv0, hw0, hdf'⟩ := castColumn_eq_some _ _ _ _ hcc
      have h1 : st₁.pcols = [] := by rw [← hstep]; exact hp
      have hdfst : st₁.df = setCol st.df c₀ ws0 := by rw [← hstep]; exact hdf'
      have hcol : getCol stb.df c₀ = some ws0 := by
        rw [hbdf, transformGo_empty_frame rest st₁ st' c₀ h1 hnd.1 h, hdfst, getCol_setCol_self]
      have hstable : mapOption (cellCast t₀) ws0 = some ws0 :=
        mapOption_stable _ (cellCast_stable t₀) vs0 ws0 hw0
      have hstep2 : transformStep stb c₀ t₀ = some stb := by
        rw [transformStep_empty stb c₀ t₀ hbp]
        unfold castColumn
        rw [hcol]
        simp only [Option.bind_eq_bind, Option.some_bind, hstable]
        rw [setCol_getCol_self stb.df c₀ ws0 hcol]
        rfl
      rw [transformGo, hstep2]
      exact ih st₁ stb hnd.2 h1 h (by rw [hbdf]) hbp

/-
Characterization of `__post_init__` and key derivation.
-/

theorem mkTable_fields (init : TableInit) (store : String → Bool) (t : Table)
    (h : mkTable init store = some t) : t.toTableInit = init := by
  unfold mkTable at h
  rcases hk : s3KeyOf init with _ | key <;> rw [hk] at h
  · simp at h
  · by_cases he : init.update_field = ""
    · simp [he] at h
      rw [← h]
    · by_cases hs : store key <;> simp [he, hs] at h <;> rw [← h]

theorem mkTable_nonempty (init : TableInit) (store : String → Bool)
    (h : init.update_field ≠ "") :
    mkTable init store = some
      { toTableInit := init,
        s3_key := AWS_BUCKET_DIR ++ "/" ++ init.name,
        refresh_mode := if store (AWS_BUCKET_DIR ++ "/" ++ init.name)
          then "overwrite_partitions" else "overwrite" } := by
  unfold mkTable s3KeyOf
  simp only [h, if_false, if_neg h]
  by_cases hs : store (AWS_BUCKET_DIR ++ "/" ++ init.name) <;> simp [h, hs]

theorem mkTable_empty_mode (init : TableInit) (store : String → Bool) (t : Table)
    (he : init.update_field = "") (h : mkTable init store = some t) :
    t.refresh_mode = "overwrite" := by
  unfold mkTable at h
  rcases hk : s3KeyOf init with _ | key <;> rw [hk] at h
  · simp at h
  · simp [he] at h
    rw [← h]

theorem splitOnChar_length_ge_two (sep : Char) (l : List Char) (h : sep ∈ l) :
    2 ≤ (splitOnChar sep l).length := by
  induction l with
  | nil => simp at h
  | cons ch cs ih =>
    rcases hs : splitOnChar sep cs with _ | ⟨g, gs⟩
    · exact absurd hs (splitOnChar_ne_nil sep cs)
    · by_cases hc : ch = sep
      · simp [splitOnChar, hs, hc]
      · rcases List.mem_cons.mp h with heq | hmem
        · exact absurd heq.symm hc
        · have h2 := ih hmem
          rw [hs] at h2
          simp [splitOnChar, hs, hc]
          simpa using h2

theorem s3KeyOf_no_slash (init : TableInit) (hemp : init.update_field = "")
    (h : '/' ∉ init.name.data) : s3KeyOf init = none := by
  unfold s3KeyOf splitSlash
  rw [splitOnChar_not_mem '/' init.name.data h]
  simp [hemp]

theorem s3KeyOf_slash (init : TableInit) (hemp : init.update_field = "")
    (h : '/' ∈ init.name.data) : ∃ key, s3KeyOf init = some key := by
  unfold s3KeyOf splitSlash
  have hlen : 2 ≤ ((splitOnChar '/' init.name.data).map String.mk).length := by
    rw [List.length_map]
    exact splitOnChar_length_ge_two '/' init.name.data h
  rcases hget : ((splitOnChar '/' init.name.data).map String.mk).get? 1 with _ | seg
  · rw [List.get?_eq_none] at hget
    omega
  · simp [hemp, hget]

/-- C1: for every table constructed with a non-empty `update_field`, the
refresh mode is resolved once at construction as a function of object-store
existence — construction always succeeds, and the mode is
`overwrite_partitions` (the spec's `OverwritePartitions`) when some object
exists under the table's destination prefix and `overwrite` (the spec's
`Overwrite`) when none does; for every successfully constructed table with an
empty `update_field` the mode is `overwrite` unconditionally, regardless of
the store contents. -/
theorem refresh_mode_resolution (init : TableInit) (store : String → Bool) :
    (init.update_field ≠ "" →
      ∃ t, mkTable init store = some t
        ∧ (store t.s3_key = true → t.refresh_mode = "overwrite_partitions")
        ∧ (store t.s3_key = false → t.refresh_mode = "overwrite"))
    ∧ (init.update_field = "" →
        ∀ t, mkTable init store = some t → t.refresh_mode = "overwrite") := by
  constructor
  · intro he
    refine ⟨_, mkTable_nonempty init store he, ?_, ?_⟩ <;> intro hs <;> simp [hs]
  · intro he t h
    exact mkTable_empty_mode init store t he h

/-- C1 witness: a concrete incremental table against a store that has the
prefix resolves to `overwrite_partitions`; a concrete full-extract table
resolves to `overwrite` against the same store. -/
theorem refresh_mode_resolution_witness :
    (∃ t, mkTable ⟨"NDAQ/RTAT", "date", ["date"], [("date", "datetime64[ns]")]⟩
          (fun _ => true) = some t
        ∧ ((fun (_ : String) => true) t.s3_key = true → t.refresh_mode = "overwrite_partitions")
        ∧ ((fun (_ : String) => true) t.s3_key = false → t.refresh_mode = "overwrite"))
    ∧ (∀ t, mkTable ⟨"NDAQ/RTAT", "", [], [("x", "int64")]⟩ (fun _ => true) = some t →
        t.refresh_mode = "overwrite") :=
  ⟨(refresh_mode_resolution ⟨"NDAQ/RTAT", "date", ["date"], [("date", "datetime64[ns]")]⟩
      (fun _ => true)).1 (by decide),
   (refresh_mode_resolution ⟨"NDAQ/RTAT", "", [], [("x", "int64")]⟩ (fun _ => true)).2 rfl⟩

/-- C10: a table with an empty `update_field` needs a `/`-qualified name —
the key derivation indexes `name.split('/')[1]`, so construction fails
(before any fetch or write) for every name without `/`; when the name does
contain `/`, key derivation is total and the constructed table (its key
included) is the same whatever the object-store state, i.e. the key is
computed once and stable. -/
theorem empty_update_field_requires_qualified_name (init : TableInit)
    (store : String → Bool) (hemp : init.update_field = "") :
    (('/' ∉ init.name.data) → mkTable init store = none)
    ∧ (('/' ∈ init.name.data) → ∃ t, mkTable init store = some t ∧
        ∀ store', mkTable init store' = some t) := by
  constructor
  · intro h
    unfold mkTable
    rw [s3KeyOf_no_slash init hemp h]
  · intro h
    obtain ⟨key, hkey⟩ := s3KeyOf_slash init hemp h
    refine ⟨{ toTableInit := init, s3_key := key, refresh_mode := "overwrite" }, ?_, ?_⟩
    · unfold mkTable
      rw [hkey]
      simp [hemp]
    · intro store'
      unfold mkTable
      rw [hkey]
      simp [hemp]

/-- C10 witness: the unqualified name `NORTAT` with empty `update_field`
fails construction; the qualified name `NDAQ/RTAT` constructs the same table
under two different stores. -/
theorem empty_update_field_requires_qualified_name_witness :
    mkTable ⟨"NORTAT", "", [], []⟩ (fun _ => true) = none
    ∧ (∃ t, mkTable ⟨"NDAQ/RTAT", "", [], []⟩ (fun _ => true) = some t ∧
        ∀ store', mkTable ⟨"NDAQ/RTAT", "", [], []⟩ store' = some t) :=
  ⟨(empty_update_field_requires_qualified_name ⟨"NORTAT", "", [], []⟩
      (fun _ => true) rfl).1 (by decide),
   (empty_update_field_requires_qualified_name ⟨"NDAQ/RTAT", "", [], []⟩
      (fun _ => true) rfl).2 (by decide)⟩

/-- C2 counterexample: a table with non-empty `update_field` (`"date"`) whose
destination does not yet exist resolves to mode `overwrite`, and the fetch
then issues the bulk `export_table` request — not the watermark-filtered
paginated pull the claim asserts for every table with non-empty
`update_field`; the bulk-export path is therefore not taken only by tables
with an empty `update_field`. -/
theorem first_run_incremental_takes_bulk_export :
    (mkTable ⟨"NDAQ/RTAT", "date", ["date"], [("date", "datetime64[ns]")]⟩
        (fun _ => false)).map (fun t => ndlFetchRequest t "2024-03-01")
      = some (FetchRequest.exportTable "NDAQ/RTAT" "NDAQ.RTAT.zip")
    ∧ ("date" : String) ≠ "" := by
  decide

/-- C2 amended: fetch dispatch follows the resolved refresh mode rather than
`update_field` alone.  A constructed table issues the paginated
watermark-filtered `get_table` request iff its mode is
`overwrite_partitions`, which holds iff `update_field` is non-empty and the
destination prefix exists; whenever the mode is `overwrite` — for every table
with an empty `update_field`, and also on the first run of a table with a
non-empty `update_field` — it issues the bulk-export request instead. -/
theorem fetch_dispatch_follows_mode (init : TableInit) (store : String → Bool)
    (t : Table) (date : String) (h : mkTable init store = some t) :
    (t.refresh_mode = "overwrite_partitions" →
      ndlFetchRequest t date = FetchRequest.getTable init.name true init.update_field date)
    ∧ (t.refresh_mode = "overwrite" →
      ndlFetchRequest t date = FetchRequest.exportTable init.name (dotName init.name ++ ".zip"))
    ∧ (t.refresh_mode = "overwrite_partitions" ↔
        (init.update_field ≠ "" ∧ store t.s3_key = true))
    ∧ (t.refresh_mode = "overwrite" ∨ t.refresh_mode = "overwrite_partitions") := by
  have hfields := mkTable_fields init store t h
  have hname : t.name = init.name := by rw [← hfields]
  have huf : t.update_field = init.update_field := by rw [← hfields]
  by_cases he : init.update_field = ""
  · have hmode : t.refresh_mode = "overwrite" :=
      mkTable_empty_mode init store t he h
    refine ⟨?_, ?_, ?_, Or.inl hmode⟩
    · intro hOP
      rw [hmode] at hOP
      simp at hOP
    · intro _
      unfold ndlFetchRequest
      rw [hmode, hname]
      simp
    · rw [hmode]
      constructor
      · intro hh
        simp at hh
      · intro hh
        exact absurd he hh.1
  · rw [mkTable_nonempty init store he] at h
    simp only [Option.some.injEq] at h
    by_cases hs : store (AWS_BUCKET_DIR ++ "/" ++ init.name)
    · have hmode : t.refresh_mode = "overwrite_partitions" := by rw [← h]; simp [hs]
      have hkey : t.s3_key = AWS_BUCKET_DIR ++ "/" ++ init.name := by rw [← h]
      refine ⟨?_, ?_, ?_, Or.inr hmode⟩
      · intro _
        unfold ndlFetchRequest
        rw [hmode, hname, huf]
        simp
      · intro hO
        rw [hmode] at hO
        simp at hO
      · rw [hmode, hkey]
        simp [he, hs]
    · have hmode : t.refresh_mode = "overwrite" := by rw [← h]; simp [hs]
      have hkey : t.s3_key = AWS_BUCKET_DIR ++ "/" ++ init.name := by rw [← h]
      refine ⟨?_, ?_, ?_, Or.inl hmode⟩
      · intro hOP
        rw [hmode] at hOP
        simp at hOP
      · intro _
        unfold ndlFetchRequest
        rw [hmode, hname]
        simp
      · rw [hmode, hkey]
        simp [he, hs]

/-- C2 witness: the second run of the concrete incremental table (store now
has the prefix) resolves to `overwrite_partitions` and issues the
watermark-filtered pull for the given date. -/
theorem fetch_dispatch_follows_mode_witness :
    ndlFetchRequest
        { toTableInit := ⟨"NDAQ/RTAT", "date", ["date"], [("date", "datetime64[ns]")]⟩,
          s3_key := "nasdaq/NDAQ/RTAT", refresh_mode := "overwrite_partitions" } "2024-03-01"
      = FetchRequest.getTable "NDAQ/RTAT" true "date" "2024-03-01" :=
  (fetch_dispatch_follows_mode ⟨"NDAQ/RTAT", "date", ["date"], [("date", "datetime64[ns]")]⟩
    (fun _ => true) _ "2024-03-01" (by decide)).1 rfl

/-- C7: in the bulk-export fetch (the path of every `overwrite`-mode table),
the temporary archive is removed on every exit path — export success, export
failure with or without a partially created file, and parse failure alike —
so no temporary file survives the fetch call (in particular none is left for
the later transform stage to leak); rows are returned exactly when both the
export and the local parse succeed. -/
theorem temp_file_removed_on_every_path (eb : ExportBehavior)
    (parsed : Option DataFrame) (fs0 : Bool) :
    (fullModeFetch eb parsed fs0).tempFileExists = false
    ∧ (fullModeFetch eb parsed fs0).rows
        = (if eb = ExportBehavior.ok then parsed else none) := by
  cases eb <;> cases fs0 <;> simp [fullModeFetch]

/-- C8: `update_tables` visits every table in declaration order and produces
one log entry per table; each entry is a function of that table's own outcome
alone, so one table's exception — raised in construction or refresh and
caught by the loop — never prevents later tables from being processed; a
failing table is logged with its dataset-qualified identity and error detail.
(The Python method returns `None`; the log sequence is its only observable
output, so no value is modelled as returned.) -/
theorem update_tables_per_table (ds : String) (tables : List String)
    (outcome : String → Except String Unit) :
    update_tables ds tables outcome
        = tables.map (fun tname => processOneTable ds tname outcome)
    ∧ (update_tables ds tables outcome).length = tables.length
    ∧ (∀ tname e, outcome (qualifiedName ds tname) = Except.error e →
        processOneTable ds tname outcome = TableLog.failed (qualifiedName ds tname) e)
    ∧ (∀ tname u, outcome (qualifiedName ds tname) = Except.ok u →
        processOneTable ds tname outcome = TableLog.refreshed (qualifiedName ds tname)) := by
  have hmap : update_tables ds tables outcome
      = tables.map (fun tname => processOneTable ds tname outcome) := by
    induction tables with
    | nil => rfl
    | cons tname rest ih =>
      rw [update_tables, List.map_cons, ih]
      rfl
  refine ⟨hmap, by rw [hmap, List.length_map], ?_, ?_⟩
  · intro tname e hout
    unfold processOneTable
    rw [hout]
  · intro tname u hout
    unfold processOneTable
    rw [hout]

/-- C8 witness: three concrete tables where the middle one fails — the log
has one entry per table in order, with the failure logged by identity and the
successes logged around it. -/
theorem update_tables_per_table_witness :
    update_tables "NDAQ" ["A", "B", "C"]
        (fun n => if n = "NDAQ/B" then Except.error "boom" else Except.ok ())
      = ["A", "B", "C"].map (fun tname => processOneTable "NDAQ" tname
          (fun n => if n = "NDAQ/B" then Except.error "boom" else Except.ok ()))
    ∧ processOneTable "NDAQ" "B"
        (fun n => if n = "NDAQ/B" then Except.error "boom" else Except.ok ())
      = TableLog.failed "NDAQ/B" "boom"
    ∧ processOneTable "NDAQ" "A"
        (fun n => if n = "NDAQ/B" then Except.error "boom" else Except.ok ())
      = TableLog.refreshed "NDAQ/A" :=
  ⟨(update_tables_per_table "NDAQ" ["A", "B", "C"]
      (fun n => if n = "NDAQ/B" then Except.error "boom" else Except.ok ())).1,
   (update_tables_per_table "NDAQ" ["A", "B", "C"]
      (fun n => if n = "NDAQ/B" then Except.error "boom" else Except.ok ())).2.2.1 "B" "boom" rfl,
   (update_tables_per_table "NDAQ" ["A", "B", "C"]
      (fun n => if n = "NDAQ/B" then Except.error "boom" else Except.ok ())).2.2.2 "A" () rfl⟩

/-- C3 counterexample: for a table that declares partition columns, a schema
column that is neither a partition column nor datetime-typed is not cast at
all — here `x : int64` holds the uncastable string `"abc"`, yet the transform
succeeds and leaves it unchanged, where the claim requires the cast to be
applied and its failure to be fatal. -/
theorem partition_table_skips_casts :
    applyTransforms [("x", "int64")]
        [("x", [Value.strVal "abc"]), ("p", [Value.intVal 1])] ["p"]
      = some ([("x", [Value.strVal "abc"]), ("p", [Value.intVal 1])], ["p"])
    ∧ castValue "int64" (Value.strVal "abc") = none := by
  decide

/-- C3 amended: the per-column casting only happens for tables that declare
no partition columns — there, every schema column that is not datetime-typed
is cast to its declared tag (column missing or cast failure is fatal for the
table's refresh); for a table with partition columns, the `if
self.partition_cols:` branch shadows the cast branches, so any column outside
the partition columns and outside `yyyy`/`mm`/`dd` is left completely
unmodified and its cast can never fail. -/
theorem cast_scope_by_partition_cols (schema : List (String × String)) (df : DataFrame)
    (p : List String) :
    (p = [] → (schema.map Prod.fst).Nodup →
      ∀ c t, (c, t) ∈ schema → t ≠ "datetime64[ns]" →
        (∀ df' p', applyTransforms schema df p = some (df', p') →
          ∃ vs ws, getCol df c = some vs ∧ mapOption (castValue t) vs = some ws ∧
            getCol df' c = some ws)
        ∧ ((getCol df c).bind (fun vs => mapOption (castValue t) vs) = none →
            applyTransforms schema df p = none))
    ∧ (p ≠ [] → ∀ c, c ∉ p → c ∉ (["yyyy", "mm", "dd"] : List String) →
        ∀ df' p', applyTransforms schema df p = some (df', p') →
          getCol df' c = getCol df c) := by
  constructor
  · intro hp hnd c t hmem ht
    constructor
    · intro df' p' h
      unfold applyTransforms at h
      rcases hgo : transformGo schema ⟨df, p, p, true⟩ with _ | st' <;> rw [hgo] at h
      · simp at h
      · simp at h
        obtain ⟨vs, ws, hv, hw, hfin⟩ :=
          transformGo_empty_col schema ⟨df, p, p, true⟩ st' c t hp hnd hmem hgo
        rw [cellCast_of_ne t ht] at hw
        rw [h.1] at hfin
        exact ⟨vs, ws, hv, hw, hfin⟩
    · intro hfail
      unfold applyTransforms
      have hfail' : (getCol (⟨df, p, p, true⟩ : TState).df c).bind
          (fun vs => mapOption (cellCast t) vs) = none := by
        rw [cellCast_of_ne t ht]
        exact hfail
      rw [transformGo_empty_fail schema ⟨df, p, p, true⟩ c t hp hnd hmem hfail']
      rfl
  · intro hp c hc1 hc2 df' p' h
    unfold applyTransforms at h
    rcases hgo : transformGo schema ⟨df, p, p, true⟩ with _ | st' <;> rw [hgo] at h
    · simp at h
    · simp at h
      rw [← h.1]
      exact transformGo_nonempty_frame schema ⟨df, p, p, true⟩ st' c hp hc1 hc2 hgo

/-- C3 witness: with no partition columns, `x : int64` is cast (`"7"` becomes
`7`) and an uncastable `"abc"` aborts the transform; with partition column
`q`, the very same `x` column is left untouched. -/
theorem cast_scope_by_partition_cols_witness :
    (∃ vs ws, getCol [("x", [Value.strVal "7"])] "x" = some vs
      ∧ mapOption (castValue "int64") vs = some ws
      ∧ getCol [("x", [Value.intVal 7])] "x" = some ws)
    ∧ applyTransforms [("x", "int64")] [("x", [Value.strVal "abc"])] [] = none
    ∧ getCol [("x", [Value.strVal "a"]), ("q", [Value.intVal 1])] "x"
        = getCol [("x", [Value.strVal "a"]), ("q", [Value.intVal 1])] "x" :=
  ⟨((cast_scope_by_partition_cols [("x", "int64")] [("x", [Value.strVal "7"])] []).1
      rfl (by decide) "x" "int64" (by decide) (by decide)).1
      [("x", [Value.intVal 7])] [] (by decide),
   ((cast_scope_by_partition_cols [("x", "int64")] [("x", [Value.strVal "abc"])] []).1
      rfl (by decide) "x" "int64" (by decide) (by decide)).2 (by decide),
   (cast_scope_by_partition_cols [("x", "int64")]
      [("x", [Value.strVal "a"]), ("q", [Value.intVal 1])] ["q"]).2
      (by decide) "x" (by decide) (by decide)
      [("x", [Value.strVal "a"]), ("q", [Value.intVal 1])] ["q"] (by decide)⟩

/-- C4 counterexample: a datetime-typed partition column that is itself named
`dd`.  The decomposition writes the day numbers into `dd` (overwriting the
original column, since line 81 assigns `self._data['dd']`) and then drops
that very column, so the transformed frame has `yyyy` and `mm` but no `dd`
column at all — the claim's promise that integer columns `yyyy`, `mm`, `dd`
are all added fails for this row-set. -/
theorem date_partition_named_dd_loses_day_column :
    applyTransforms [("dd", "datetime64[ns]")] [("dd", [Value.dateVal 2023 7 9])] ["dd"]
      = some ([("yyyy", [Value.intVal 2023]), ("mm", [Value.intVal 7])], ["yyyy", "mm", "dd"])
    ∧ getCol [("yyyy", [Value.intVal 2023]), ("mm", [Value.intVal 7])] "dd" = none := by
  decide

/-- C4 amended: for every row-set whose datetime-typed partition column is
not itself named `yyyy`, `mm` or `dd`, provided no other datetime-tagged
schema column lies in the partition-column list or among `yyyy`/`mm`/`dd`
(the spec's at-most-one-datetime-partition-column assumption), the transform
drops the original column and adds the integer columns `yyyy`, `mm`, `dd`
holding calendar year, month and day-of-month of the cast values, and the
partition-column list becomes exactly `["yyyy", "mm", "dd"]`. -/
theorem date_partition_decomposition (schema : List (String × String)) (df : DataFrame)
    (p : List String) (c : String) (vs cast : List Value)
    (hdf : (df.map Prod.fst).Nodup) (hp : p ≠ []) (hc : c ∈ p)
    (hcn : c ∉ (["yyyy", "mm", "dd"] : List String))
    (hmem : (c, "datetime64[ns]") ∈ schema)
    (hother : ∀ c' t', (c', t') ∈ schema → t' = "datetime64[ns]" → c' ≠ c →
      c' ∉ p ∧ c' ∉ (["yyyy", "mm", "dd"] : List String))
    (hv : getCol df c = some vs)
    (hcast : mapOption (castValue "datetime64[ns]") vs = some cast) :
    ∃ df', applyTransforms schema df p = some (df', ["yyyy", "mm", "dd"])
      ∧ getCol df' c = none
      ∧ getCol df' "yyyy" = some (cast.map yearValue)
      ∧ getCol df' "mm" = some (cast.map monthValue)
      ∧ getCol df' "dd" = some (cast.map dayValue) := by
  obtain ⟨df', hdec, hy, hm, hd, hdrop, _⟩ := decomposeDate_spec df c vs cast hv hcast hcn
  refine ⟨df', ?_, hdrop hdf, hy, hm, hd⟩
  induction schema with
  | nil => simp at hmem
  | cons hd0 rest ih =>
    obtain ⟨c₀, t₀⟩ := hd0
    by_cases hcond : c₀ ∈ p ∧ t₀ = "datetime64[ns]"
    · have hc₀ : c₀ = c := by
        by_contra hne
        exact (hother c₀ t₀ (List.mem_cons_self _ _) hcond.2 hne).1 hcond.1
      subst hc₀
      obtain ⟨_, ht⟩ := hcond
      subst ht
      unfold applyTransforms
      rw [transformGo, transformStep_trigger ⟨df, p, p, true⟩ c₀ hp hc, hdec]
      simp only [Option.map_some']
      rw [transformGo_skipAll rest _ (by simp) ?hskip]
      · rfl
      case hskip =>
        intro q hq hcond2
        by_cases hqc : q.1 = c₀
        · rw [hqc] at hcond2
          exact hcn hcond2.1
        · exact (hother q.1 q.2 (List.mem_cons_of_mem _ (by simpa using hq))
            hcond2.2 hqc).2 hcond2.1
    · have hmem2 : (c, "datetime64[ns]") ∈ rest := by
        rcases List.mem_cons.mp hmem with heq | hmem2
        · exfalso
          rw [Prod.mk.injEq] at heq
          exact hcond ⟨heq.1 ▸ hc, heq.2.symm⟩
        · exact hmem2
      have ih2 := ih hmem2
        (fun c' t' hm' ht' hne' => hother c' t' (List.mem_cons_of_mem _ hm') ht' hne')
      unfold applyTransforms at ih2 ⊢
      rw [transformGo, transformStep_skip ⟨df, p, p, true⟩ c₀ t₀ hp hcond]
      exact ih2

/-- C4 witness: the spec's own example — partition column `date` with value
2024-03-01 decomposes into `yyyy=2024`, `mm=3`, `dd=1`, the `date` column is
dropped, a sibling `int64` column is left alone by this run, and the
partition-column list becomes exactly `["yyyy", "mm", "dd"]`. -/
theorem date_partition_decomposition_witness :
    ∃ df', applyTransforms [("date", "datetime64[ns]"), ("x", "int64")]
        [("date", [Value.dateVal 2024 3 1]), ("x", [Value.intVal 7])] ["date"]
      = some (df', ["yyyy", "mm", "dd"])
      ∧ getCol df' "date" = none
      ∧ getCol df' "yyyy" = some [Value.intVal 2024]
      ∧ getCol df' "mm" = some [Value.intVal 3]
      ∧ getCol df' "dd" = some [Value.intVal 1] :=
  date_partition_decomposition [("date", "datetime64[ns]"), ("x", "int64")]
    [("date", [Value.dateVal 2024 3 1]), ("x", [Value.intVal 7])] ["date"] "date"
    [Value.dateVal 2024 3 1] [Value.dateVal 2024 3 1]
    (by decide) (by decide) (by decide) (by decide) (by decide)
    (by
      intro c' t' hm ht hne
      simp only [List.mem_cons, List.not_mem_nil, or_false, Prod.mk.injEq] at hm
      rcases hm with ⟨h1, _⟩ | ⟨_, h2⟩
      · exact absurd h1 hne
      · rw [h2] at ht
        simp at ht)
    (by decide) (by decide)

/-- C5 counterexample: for a table that declares partition columns, a
datetime-typed schema column that is not a partition column is not formatted
(nor cast) at all — the claim requires it to become the literal string
`"2024-03-01"`, but the transform leaves the datetime value in place. -/
theorem nonpartition_datetime_not_formatted :
    applyTransforms [("d", "datetime64[ns]")]
        [("d", [Value.dateVal 2024 3 1]), ("p", [Value.intVal 1])] ["p"]
      = some ([("d", [Value.dateVal 2024 3 1]), ("p", [Value.intVal 1])], ["p"])
    ∧ Value.dateVal 2024 3 1 ≠ Value.strVal "2024-03-01" := by
  decide

/-- C5 amended: only for tables with no partition columns is every
datetime-typed schema column cast to datetime and formatted as an ISO
`YYYY-MM-DD` string (a value equivalent to March 1 2024 becomes the literal
string `"2024-03-01"`); when the table declares partition columns, a
datetime column outside them (and outside `yyyy`/`mm`/`dd`) is left
unmodified. -/
theorem datetime_format_scope (schema : List (String × String)) (df : DataFrame)
    (p : List String) :
    (p = [] → (schema.map Prod.fst).Nodup →
      ∀ c, (c, "datetime64[ns]") ∈ schema →
        ∀ df' p', applyTransforms schema df p = some (df', p') →
          ∃ vs ws, getCol df c = some vs ∧ mapOption castFormatDate vs = some ws ∧
            getCol df' c = some ws
            ∧ ∀ w ∈ ws, ∃ y m d, w = Value.strVal (formatDate y m d))
    ∧ (p ≠ [] → ∀ c, c ∉ p → c ∉ (["yyyy", "mm", "dd"] : List String) →
        ∀ df' p', applyTransforms schema df p = some (df', p') →
          getCol df' c = getCol df c)
    ∧ formatDate 2024 3 1 = "2024-03-01" := by
  refine ⟨?_, ?_, by decide⟩
  · intro hp hnd c hmem df' p' h
    unfold applyTransforms at h
    rcases hgo : transformGo schema ⟨df, p, p, true⟩ with _ | st' <;> rw [hgo] at h
    · simp at h
    · simp at h
      obtain ⟨vs, ws, hv, hw, hfin⟩ := transformGo_empty_col schema ⟨df, p, p, true⟩ st'
        c "datetime64[ns]" hp hnd hmem hgo
      rw [cellCast_dt] at hw
      rw [h.1] at hfin
      refine ⟨vs, ws, hv, hw, hfin, ?_⟩
      intro w hws
      obtain ⟨v, hv2⟩ := mapOption_mem_shape castFormatDate vs ws hw w hws
      exact castFormatDate_shape v w hv2
  · intro hp c hc1 hc2 df' p' h
    unfold applyTransforms at h
    rcases hgo : transformGo schema ⟨df, p, p, true⟩ with _ | st' <;> rw [hgo] at h
    · simp at h
    · simp at h
      rw [← h.1]
      exact transformGo_nonempty_frame schema ⟨df, p, p, true⟩ st' c hp hc1 hc2 hgo

/-- C5 witness: with no partition columns, the datetime column `d` holding
March 1 2024 is formatted to the literal string `"2024-03-01"`; with
partition column `q`, the same column is left untouched. -/
theorem datetime_format_scope_witness :
    (∃ vs ws, getCol [("d", [Value.dateVal 2024 3 1])] "d" = some vs
      ∧ mapOption castFormatDate vs = some ws
      ∧ getCol [("d", [Value.strVal "2024-03-01"])] "d" = some ws
      ∧ ∀ w ∈ ws, ∃ y m d, w = Value.strVal (formatDate y m d))
    ∧ getCol [("d", [Value.dateVal 2024 3 1]), ("q", [Value.intVal 1])] "d"
        = getCol [("d", [Value.dateVal 2024 3 1]), ("q", [Value.intVal 1])] "d" :=
  ⟨(datetime_format_scope [("d", "datetime64[ns]")] [("d", [Value.dateVal 2024 3 1])] []).1
      rfl (by decide) "d" (by decide)
      [("d", [Value.strVal "2024-03-01"])] [] (by decide),
   (datetime_format_scope [("d", "datetime64[ns]")]
      [("d", [Value.dateVal 2024 3 1]), ("q", [Value.intVal 1])] ["q"]).2.1
      (by decide) "d" (by decide) (by decide)
      [("d", [Value.dateVal 2024 3 1]), ("q", [Value.intVal 1])] ["q"] (by decide)⟩

/-- C6 counterexample: on a correctly-typed row-set whose datetime partition
column is named `dd`, the first transform application succeeds (dropping the
`dd` column, see the C4 counterexample) but the second application raises —
the schema still lists `dd`, `dd` is in the rewritten partition-column list
`["yyyy","mm","dd"]`, and the frame no longer has that column — so applying
transform again is not free of observable change. -/
theorem transform_not_idempotent_on_dd_partition :
    applyTransforms [("dd", "datetime64[ns]")] [("dd", [Value.dateVal 2024 3 1])] ["dd"]
      = some ([("yyyy", [Value.intVal 2024]), ("mm", [Value.intVal 3])], ["yyyy", "mm", "dd"])
    ∧ applyTransforms [("dd", "datetime64[ns]")]
        [("yyyy", [Value.intVal 2024]), ("mm", [Value.intVal 3])] ["yyyy", "mm", "dd"]
      = none := by
  decide

/-- C6 amended: provided no schema column named `yyyy`, `mm` or `dd` is
datetime-tagged (schema keys are unique, as they come from a dict), the
transform is idempotent — re-applying it to the rows and partition-column
list a successful application produced succeeds and changes nothing, the
first application's declared date/partition decomposition aside. -/
theorem transform_idempotent (schema : List (String × String)) (df : DataFrame)
    (p : List String) (df' : DataFrame) (p' : List String)
    (hnd : (schema.map Prod.fst).Nodup)
    (hsafe : ∀ c t, (c, t) ∈ schema → c ∈ (["yyyy", "mm", "dd"] : List String) →
      t ≠ "datetime64[ns]")
    (h : applyTransforms schema df p = some (df', p')) :
    applyTransforms schema df' p' = some (df', p') := by
  unfold applyTransforms at h ⊢
  rcases hgo : transformGo schema ⟨df, p, p, true⟩ with _ | st' <;> rw [hgo] at h
  · simp at h
  · simp at h
    by_cases hp : p = []
    · subst hp
      have hstate := transformGo_empty_state schema ⟨df, [], [], true⟩ st' rfl hgo
      have hp' : p' = [] := by rw [← h.2]; exact hstate.1
      have hagain := transformGo_empty_again schema ⟨df, [], [], true⟩ st'
          ⟨df', p', p', true⟩ hnd rfl hgo h.1.symm hp'
      rw [hagain]
      simp
    · rcases transformGo_nonempty_cases schema ⟨df, p, p, true⟩ st' hp hgo with
        ⟨heq, hskip⟩ | hymd
      · have hdf : df' = df := by rw [← h.1, heq]
        have hpp : p' = p := by rw [← h.2, heq]
        have hne2 : (⟨df', p', p', true⟩ : TState).pcols ≠ [] := by
          show p' ≠ []
          rw [hpp]
          exact hp
        have hskip' : ∀ q ∈ schema,
            ¬(q.1 ∈ (⟨df', p', p', true⟩ : TState).pcols ∧ q.2 = "datetime64[ns]") := by
          intro q hq
          show ¬(q.1 ∈ p' ∧ q.2 = "datetime64[ns]")
          rw [hpp]
          exact hskip q hq
        rw [transformGo_skipAll schema ⟨df', p', p', true⟩ hne2 hskip']
        simp
      · have hp' : p' = ["yyyy", "mm", "dd"] := by rw [← h.2, hymd]
        have hne2 : (⟨df', p', p', true⟩ : TState).pcols ≠ [] := by
          show p' ≠ []
          rw [hp']
          simp
        have hskip' : ∀ q ∈ schema,
            ¬(q.1 ∈ (⟨df', p', p', true⟩ : TState).pcols ∧ q.2 = "datetime64[ns]") := by
          intro q hq hcond
          have hcond' : q.1 ∈ p' ∧ q.2 = "datetime64[ns]" := hcond
          rw [hp'] at hcond'
          exact hsafe q.1 q.2 (by simpa using hq) hcond'.1 hcond'.2
        rw [transformGo_skipAll schema ⟨df', p', p', true⟩ hne2 hskip']
        simp

/-- C6 witness: a two-column table (int plus non-partition datetime) with no
partition columns — the first application casts and formats, and re-applying
the transform to its output is the identity. -/
theorem transform_idempotent_witness :
    applyTransforms [("x", "int64"), ("d", "datetime64[ns]")]
        [("x", [Value.intVal 5]), ("d", [Value.strVal "2024-03-01"])] []
      = some ([("x", [Value.intVal 5]), ("d", [Value.strVal "2024-03-01"])], []) :=
  transform_idempotent [("x", "int64"), ("d", "datetime64[ns]")]
    [("x", [Value.intVal 5]), ("d", [Value.dateVal 2024 3 1])] []
    [("x", [Value.intVal 5]), ("d", [Value.strVal "2024-03-01"])] []
    (by decide)
    (by
      intro c t hm hcy
      simp only [List.mem_cons, List.not_mem_nil, or_false, Prod.mk.injEq] at hm
      rcases hm with ⟨rfl, rfl⟩ | ⟨rfl, rfl⟩ <;> simp at hcy)
    (by decide)

/-- C9 counterexample: decomposing the datetime partition column `date`
rewrites `self.partition_cols` to `["yyyy","mm","dd"]` and, before the
rebinding, `partition_cols.remove(column)` mutates the caller's list object
in place (here from `["date"]` to `[]`) — the partition-column list supplied
at construction is not immutable under transform. -/
theorem partition_cols_mutated_by_transform :
    transformTable ⟨"NDAQ/RTAT", "date", ["date"], [("date", "datetime64[ns]")]⟩
        [("date", [Value.dateVal 2024 3 1])]
      = some (⟨"NDAQ/RTAT", "date", ["yyyy", "mm", "dd"], [("date", "datetime64[ns]")]⟩,
          [("yyyy", [Value.intVal 2024]), ("mm", [Value.intVal 3]), ("dd", [Value.intVal 1])],
          [])
    ∧ (["yyyy", "mm", "dd"] : List String) ≠ ["date"]
    ∧ ([] : List String) ≠ ["date"] := by
  decide

/-- C9 amended: a table's `name`, `update_field` and `schema` are indeed
unchanged by the refresh stages (fetch and write read them only; the
transform is the sole mutator), but `partition_cols` is not: it is unchanged
only when no decomposition fires, and when a datetime-tagged partition column
is decomposed, `self.partition_cols` becomes `["yyyy","mm","dd"]` while the
caller's list object has that column removed in place. -/
theorem table_spec_after_transform (t : TableInit) (df : DataFrame)
    (t' : TableInit) (df' : DataFrame) (callerFinal : List String)
    (h : transformTable t df = some (t', df', callerFinal)) :
    t'.name = t.name ∧ t'.update_field = t.update_field ∧ t'.schema = t.schema
    ∧ ((t'.partition_cols = t.partition_cols ∧ callerFinal = t.partition_cols)
      ∨ (t'.partition_cols = ["yyyy", "mm", "dd"]
         ∧ ∃ c, c ∈ t.partition_cols ∧ callerFinal = t.partition_cols.erase c)) := by
  unfold transformTable at h
  rcases hgo : transformGo t.schema ⟨df, t.partition_cols, t.partition_cols, true⟩
    with _ | st' <;> rw [hgo] at h
  · simp at h
  · simp only [Option.map_some', Option.some.injEq, Prod.mk.injEq] at h
    obtain ⟨ht', hdf', hcaller⟩ := h
    have hname : t'.name = t.name := by rw [← ht']
    have huf : t'.update_field = t.update_field := by rw [← ht']
    have hschema : t'.schema = t.schema := by rw [← ht']
    have hpc : t'.partition_cols = st'.pcols := by rw [← ht']
    refine ⟨hname, huf, hschema, ?_⟩
    rcases transformGo_caller t.schema ⟨df, t.partition_cols, t.partition_cols, true⟩ st'
        rfl hgo with ⟨g1, g2, _⟩ | ⟨g1, c, hcmem, g2⟩
    · exact Or.inl ⟨by rw [hpc, g1], by rw [← hcaller, g2]⟩
    · exact Or.inr ⟨by rw [hpc, g1], c, hcmem, by rw [← hcaller, g2]⟩

/-- C9 witness: for a table whose schema triggers no decomposition, the spec
comes through the transform entirely unchanged and the caller's list is not
mutated. -/
theorem table_spec_after_transform_witness :
    TableInit.name ⟨"NDAQ/RTAT", "date", [], [("x", "int64")]⟩ = "NDAQ/RTAT"
    ∧ TableInit.update_field ⟨"NDAQ/RTAT", "date", [], [("x", "int64")]⟩ = "date"
    ∧ TableInit.schema ⟨"NDAQ/RTAT", "date", [], [("x", "int64")]⟩ = [("x", "int64")]
    ∧ ((TableInit.partition_cols ⟨"NDAQ/RTAT", "date", [], [("x", "int64")]⟩ = []
        ∧ ([] : List String) = [])
      ∨ (TableInit.partition_cols ⟨"NDAQ/RTAT", "date", [], [("x", "int64")]⟩
          = ["yyyy", "mm", "dd"]
         ∧ ∃ c, c ∈ ([] : List String) ∧ ([] : List String) = List.erase [] c)) :=
  table_spec_after_transform ⟨"NDAQ/RTAT", "date", [], [("x", "int64")]⟩
    [("x", [Value.intVal 1])] ⟨"NDAQ/RTAT", "date", [], [("x", "int64")]⟩
    [("x", [Value.intVal 1])] [] (by decide)
